import Mathlib

/-!
Verification of the `cachemem` in-memory cache (Go) against its specification.

Modelling conventions (shallow embedding):
* `time.Time` values are modelled as `Int` (nanoseconds since an epoch);
  the Go zero `time.Time{}` is `0`, `t.After(u)` is `t > u`, `t.IsZero()` is
  `t = 0`.  `time.Duration` is likewise an `Int`.
* Every operation that reads the clock takes the current time `now : Int`
  as an explicit parameter, held fixed for the duration of the call.
* The Go map backing the store is modelled as an association list whose
  insertion replaces any existing binding for the key.
* Go's zero value of a type `V` is `(default : V)` from `Inhabited V`.
* Fallible upstream fetches return `Except E _`; functions that may call
  the fetcher additionally return the list of arguments of the upstream
  calls they issued, so that "exactly one upstream call" is expressible.
-/

namespace Cachemem

section Store

variable {K : Type} {α : Type} [DecidableEq K]

/-- Lookup in the association-list model of a Go map: the first binding
for the key wins. -/
def storeLookup (s : List (K × α)) (k : K) : Option α :=
  match s with
  | [] => none
  | kv :: rest => if kv.1 = k then some kv.2 else storeLookup rest k

/-- Go map deletion `delete(m, k)`: removes the binding for `k`. -/
def storeDelete (s : List (K × α)) (k : K) : List (K × α) :=
  match s with
  | [] => []
  | kv :: rest => if kv.1 = k then storeDelete rest k else kv :: storeDelete rest k

/-- Go map assignment `m[k] = a`: replaces any existing binding for `k`. -/
def storeSet (s : List (K × α)) (k : K) (a : α) : List (K × α) :=
  (k, a) :: storeDelete s k

end Store

/-! ## The eager-strategy cache

First variant of `cachemem.go`: the store is an `asyncMap`, entries carry
an `expiresAt` time (`time.Time{}` = never expires), and `SetWithExpiry`
with a positive ttl schedules a `time.AfterFunc` that later deletes the
key unconditionally.  Pending `time.AfterFunc` timers are modelled as a
list of `(fireAt, key)` pairs; `fireTimer` is the body of the scheduled
closure. -/

namespace Eager

structure Entry (V : Type) where
  value : V
  expiresAt : Int
  deriving DecidableEq

structure Cache (K V : Type) where
  store : List (K × Entry V)
  timers : List (Int × K)
  deriving DecidableEq

variable {K V : Type} [DecidableEq K]

/-- Go `Set`: writes the entry with the zero expiry time (never expires). -/
def set (c : Cache K V) (k : K) (v : V) : Cache K V :=
  { c with store := storeSet c.store k ⟨v, 0⟩ }

/-- Go `SetWithExpiry`: always stamps the entry with `now + expiresIn`;
when `expiresIn > 0` it additionally schedules a deferred deletion of the
key at `now + expiresIn`. -/
def setWithExpiry (c : Cache K V) (now : Int) (k : K) (v : V) (expiresIn : Int) :
    Cache K V :=
  let c' : Cache K V := { c with store := storeSet c.store k ⟨v, now + expiresIn⟩ }
  if 0 < expiresIn then { c' with timers := c'.timers ++ [(now + expiresIn, k)] }
  else c'

/-- Go `Get`: reports not-found when the key is absent, or when the stored
`expiresAt` is non-zero and not after `now`. On an absent key the Go code
returns the zero value of the entry, hence `default`. -/
def get [Inhabited V] (c : Cache K V) (now : Int) (k : K) : V × Bool :=
  match storeLookup c.store k with
  | none => (default, false)
  | some e => if e.expiresAt ≠ 0 ∧ e.expiresAt ≤ now then (e.value, false)
              else (e.value, true)

/-- The body of the `time.AfterFunc` closure scheduled by `SetWithExpiry`:
it deletes the key from the store unconditionally. -/
def fireTimer (c : Cache K V) (k : K) : Cache K V :=
  { c with store := storeDelete c.store k }

/-- Go `Delete`. -/
def delete (c : Cache K V) (k : K) : Cache K V :=
  { c with store := storeDelete c.store k }

end Eager

/-! ## The lazy-strategy cache with fetch-through

Second variant of `cachemem.go`: expiry is checked on every read via
`hasExpired`, a periodic sweep (`clean`) purges expired entries, and the
cache wraps an upstream `Fetcher` with `GetOrFetch` / `FetchMany`.
Functions that may call the fetcher also return the list of upstream
calls they issued, so that call counts are expressible. -/

namespace Lazy

structure Entry (V : Type) where
  value : V
  expiresAt : Int
  deriving DecidableEq

variable {K V E : Type} [DecidableEq K]

/-- Go `hasExpired`: `time.Now().After(e.expiresAt)` — strictly after. -/
def hasExpired (now : Int) (e : Entry V) : Bool :=
  decide (e.expiresAt < now)

/-- The upstream `Fetcher` interface: both operations are fallible. -/
structure Fetcher (K V E : Type) where
  FetchOne : K → Except E V
  FetchMany : List K → Except E (List V)

structure Cache (K V E : Type) where
  fetcher : Fetcher K V E
  getKey : V → K
  store : List (K × Entry V)

/-- Go `Get`: absent or expired yields `(e.value, false)` where `e` is the
zero entry when absent (hence `default`) and the stored entry otherwise. -/
def get [Inhabited V] (c : Cache K V E) (now : Int) (k : K) : V × Bool :=
  match storeLookup c.store k with
  | none => (default, false)
  | some e => if hasExpired now e then (e.value, false) else (e.value, true)

/-- Go `Set`: the key is derived from the value via `getKey`, and the
entry is stamped with `expiresAt = now + expiresIn`. -/
def set (c : Cache K V E) (now : Int) (v : V) (expiresIn : Int) : Cache K V E :=
  { c with store := storeSet c.store (c.getKey v) ⟨v, now + expiresIn⟩ }

/-- Go `Len`: raw storage occupancy, including expired entries. -/
def len (c : Cache K V E) : Nat :=
  c.store.length

/-- One pass of the Go `clean` sweep over the underlying store: deletes
every binding whose entry has expired. -/
def cleanStore (now : Int) : List (K × Entry V) → List (K × Entry V)
  | [] => []
  | kv :: rest =>
      if hasExpired now kv.2 then cleanStore now rest
      else kv :: cleanStore now rest

/-- Go `clean`, as executed by one wake-up of the sweep loop. -/
def clean (c : Cache K V E) (now : Int) : Cache K V E :=
  { c with store := cleanStore now c.store }

/-- Go `GetMany`: the subset of the requested keys that are cached and
unexpired. -/
def getMany [Inhabited V] (c : Cache K V E) (now : Int) (keys : List K) : List V :=
  keys.filterMap (fun k =>
    let r := get c now k
    if r.2 then some r.1 else none)

/-- Go `GetOrFetch`: cache hit short-circuits; on a miss the fetcher's
`FetchOne` is called once and, on success, the result is cached via `set`.
The third component lists the keys passed to `FetchOne` during the call. -/
def getOrFetch [Inhabited V] (c : Cache K V E) (now : Int) (k : K) (expiresIn : Int) :
    Except E V × Cache K V E × List K :=
  let r := get c now k
  if r.2 then (Except.ok r.1, c, [])
  else
    match c.fetcher.FetchOne k with
    | Except.error err => (Except.error err, c, [k])
    | Except.ok v => (Except.ok v, set c now v expiresIn, [k])

/-- The `keysToFetch` slice built by Go `FetchMany`: the requested keys
that are not currently cached and unexpired, in request order. -/
def missingKeys [Inhabited V] (c : Cache K V E) (now : Int) (keys : List K) : List K :=
  keys.filter (fun k => !(get c now k).2)

/-- Go `FetchMany`: computes the shared stamp `now + expiresIn` up front,
issues a single upstream `FetchMany` for the missing keys, and on success
writes every returned value with that shared stamp.  The first component
is the returned error (if any); the third lists the argument of each
upstream `FetchMany` call issued. -/
def fetchMany [Inhabited V] (c : Cache K V E) (now : Int) (keys : List K)
    (expiresIn : Int) : Option E × Cache K V E × List (List K) :=
  let expiresAt := now + expiresIn
  let keysToFetch := missingKeys c now keys
  match c.fetcher.FetchMany keysToFetch with
  | Except.error err => (some err, c, [keysToFetch])
  | Except.ok values =>
      (none,
       { c with
          store := values.foldl
            (fun s v => storeSet s (c.getKey v) ⟨v, expiresAt⟩) c.store },
       [keysToFetch])

end Lazy

/-! ## The sweep-loop control state

`StartCleaning` / `StopCleaning` guard the sweep loop with the
`isCleaning` flag and the stop channel.  Each call is modelled as one
atomic transition on the control state; `activeLoops` counts the sweep
loops currently running (a loop becomes active when `StartCleaning`
passes its guard and enters the `for`/`select` loop, and exits when the
stop signal is received). -/

namespace Sweep

inductive Op : Type
  | start
  | stop
  deriving DecidableEq

structure State where
  isCleaning : Bool
  activeLoops : Nat
  deriving DecidableEq

/-- The state of a freshly constructed cache: not cleaning, no loop. -/
def init : State :=
  { isCleaning := false, activeLoops := 0 }

/-- `StartCleaning` returns immediately when `isCleaning` is set,
otherwise sets the flag and enters the loop; `StopCleaning` returns
immediately when `isCleaning` is clear, otherwise signals the loop,
which clears the flag and exits. -/
def step (s : State) : Op → State
  | Op.start =>
      if s.isCleaning then s
      else { isCleaning := true, activeLoops := s.activeLoops + 1 }
  | Op.stop =>
      if s.isCleaning then { isCleaning := false, activeLoops := s.activeLoops - 1 }
      else s

/-- The control state reached from `init` by a sequence of calls. -/
def run (ops : List Op) : State :=
  ops.foldl step init

end Sweep

/-! ## Concrete cache instances used as witnesses -/

/-- An empty cache over the identity fetcher (every fetch succeeds and
returns the requested key as the value; `getKey` is the identity). -/
def emptyIntCache : Lazy.Cache Int Int Unit :=
  ⟨⟨fun k => Except.ok k, fun ks => Except.ok ks⟩, fun v => v, []⟩

/-- A cache over the identity fetcher holding one entry with deadline 50. -/
def boundaryCache : Lazy.Cache Int Int Unit :=
  ⟨⟨fun k => Except.ok k, fun ks => Except.ok ks⟩, fun v => v, [(1, ⟨7, 50⟩)]⟩

/-- The cache of the spec's batch scenario at time 0: keys 1 and 3 are
cached and unexpired, and the fetcher returns each requested key as its
value. -/
def batchCache : Lazy.Cache Int Int Unit :=
  ⟨⟨fun k => Except.ok k, fun ks => Except.ok ks⟩, fun v => v,
    [(1, ⟨1, 100⟩), (3, ⟨3, 100⟩)]⟩

/-- An empty cache over the identity fetcher whose key-extraction
function maps every value to 0, so fetched values are stored under a key
other than the one that was requested. -/
def skewCache : Lazy.Cache Int Int Unit :=
  ⟨⟨fun k => Except.ok k, fun ks => Except.ok ks⟩, fun _ => 0, []⟩

/-- An empty cache whose fetcher always fails. -/
def failCache : Lazy.Cache Int Int Unit :=
  ⟨⟨fun _ => Except.error (), fun _ => Except.error ()⟩, fun v => v, []⟩

/-- A cache whose fetcher always fails but which already holds key 1,
unexpired at time 0. -/
def cachedFailCache : Lazy.Cache Int Int Unit :=
  ⟨⟨fun _ => Except.error (), fun _ => Except.error ()⟩, fun v => v,
    [(1, ⟨1, 100⟩)]⟩

/-- The cache of the spec's stale-entry scenario: the entry `(1, "x")`
was written at time 0 with ttl 10, and 20 time units have elapsed. -/
def staleCache : Lazy.Cache Int String Unit :=
  ⟨⟨fun _ => Except.error (), fun _ => Except.error ()⟩, fun _ => 0,
    [(1, ⟨"x", 10⟩)]⟩

end Cachemem

namespace Cachemem

/-! ## Store lemmas -/

section StoreLemmas

variable {K : Type} {α : Type} [DecidableEq K]

theorem storeLookup_delete_self (s : List (K × α)) (k : K) :
    storeLookup (storeDelete s k) k = none := by
  induction s with
  | nil => rfl
  | cons kv rest ih =>
    by_cases h : kv.1 = k
    · simpa [storeDelete, storeLookup, h] using ih
    · simpa [storeDelete, storeLookup, h] using ih

theorem storeLookup_delete_ne (s : List (K × α)) (k k' : K) (h : k' ≠ k) :
    storeLookup (storeDelete s k) k' = storeLookup s k' := by
  induction s with
  | nil => rfl
  | cons kv rest ih =>
    by_cases hk : kv.1 = k
    · have hkk : ¬ (k = k') := fun e => h e.symm
      simp [storeDelete, storeLookup, hk, hkk, ih]
    · by_cases hk' : kv.1 = k'
      · simp [storeDelete, storeLookup, hk, hk', h]
      · simp [storeDelete, storeLookup, hk, hk', ih]

theorem storeLookup_set_self (s : List (K × α)) (k : K) (a : α) :
    storeLookup (storeSet s k a) k = some a := by
  simp [storeSet, storeLookup]

theorem storeLookup_set_ne (s : List (K × α)) (k k' : K) (a : α) (h : k' ≠ k) :
    storeLookup (storeSet s k a) k' = storeLookup s k' := by
  have hne : ¬ (k = k') := fun e => h e.symm
  simp only [storeSet, storeLookup, if_neg hne]
  exact storeLookup_delete_ne s k k' h

theorem storeLookup_mem (s : List (K × α)) (k : K) (a : α)
    (h : storeLookup s k = some a) : (k, a) ∈ s := by
  induction s with
  | nil => simp [storeLookup] at h
  | cons kv rest ih =>
    by_cases hk : kv.1 = k
    · simp only [storeLookup, if_pos hk] at h
      have h2 : kv.2 = a := by injection h
      have hkv : kv = (k, a) := by
        cases kv
        simp_all
      rw [hkv]
      exact List.mem_cons_self _ _
    · simp only [storeLookup, if_neg hk] at h
      exact List.mem_cons_of_mem _ (ih h)

theorem storeLookup_eq_none_of_not_mem (s : List (K × α)) (k : K)
    (h : k ∉ s.map Prod.fst) : storeLookup s k = none := by
  induction s with
  | nil => rfl
  | cons kv rest ih =>
    simp only [List.map_cons, List.mem_cons] at h
    push_neg at h
    have h1 : ¬ (kv.1 = k) := fun e => h.1 e.symm
    simp [storeLookup, h1, ih h.2]

end StoreLemmas

/-! ## Lemmas about the sweep pass -/

section CleanLemmas

variable {K V : Type} [DecidableEq K]

theorem storeLookup_cleanStore_of_not_mem (now : Int) (s : List (K × Lazy.Entry V))
    (k : K) (h : k ∉ s.map Prod.fst) :
    storeLookup (Lazy.cleanStore now s) k = none := by
  induction s with
  | nil => rfl
  | cons kv rest ih =>
    simp only [List.map_cons, List.mem_cons] at h
    push_neg at h
    have h1 : ¬ (kv.1 = k) := fun e => h.1 e.symm
    by_cases he : Lazy.hasExpired now kv.2
    · simp [Lazy.cleanStore, he, ih h.2]
    · simp [Lazy.cleanStore, he, storeLookup, h1, ih h.2]

theorem storeLookup_cleanStore_some (now : Int) (s : List (K × Lazy.Entry V))
    (k : K) (e : Lazy.Entry V) (hnd : (s.map Prod.fst).Nodup)
    (h : storeLookup s k = some e) :
    storeLookup (Lazy.cleanStore now s) k =
      if Lazy.hasExpired now e then none else some e := by
  induction s with
  | nil => simp [storeLookup] at h
  | cons kv rest ih =>
    simp only [List.map_cons, List.nodup_cons] at hnd
    by_cases hk : kv.1 = k
    · simp only [storeLookup, if_pos hk] at h
      have h2 : kv.2 = e := by injection h
      subst h2
      have hnotin : k ∉ rest.map Prod.fst := hk ▸ hnd.1
      by_cases he : Lazy.hasExpired now kv.2
      · simp [Lazy.cleanStore, he,
          storeLookup_cleanStore_of_not_mem now rest k hnotin]
      · simp [Lazy.cleanStore, he, storeLookup, hk]
    · simp only [storeLookup, if_neg hk] at h
      by_cases he : Lazy.hasExpired now kv.2
      · simp [Lazy.cleanStore, he, ih hnd.2 h]
      · simp [Lazy.cleanStore, he, storeLookup, hk, ih hnd.2 h]

omit [DecidableEq K] in
theorem cleanStore_length_le (now : Int) (s : List (K × Lazy.Entry V)) :
    (Lazy.cleanStore now s).length ≤ s.length := by
  induction s with
  | nil => exact Nat.le_refl _
  | cons kv rest ih =>
    by_cases he : Lazy.hasExpired now kv.2
    · simp only [Lazy.cleanStore, if_pos he, List.length_cons]
      exact Nat.le_succ_of_le ih
    · simp only [Lazy.cleanStore, if_neg he, List.length_cons]
      exact Nat.succ_le_succ ih

omit [DecidableEq K] in
theorem cleanStore_length_lt (now : Int) (s : List (K × Lazy.Entry V))
    (k : K) (e : Lazy.Entry V) (hmem : (k, e) ∈ s)
    (he : Lazy.hasExpired now e = true) :
    (Lazy.cleanStore now s).length < s.length := by
  induction s with
  | nil => cases hmem
  | cons kv rest ih =>
    by_cases hkv : Lazy.hasExpired now kv.2
    · simp only [Lazy.cleanStore, if_pos hkv, List.length_cons]
      exact Nat.lt_succ_of_le (cleanStore_length_le now rest)
    · rcases List.mem_cons.mp hmem with heq | hmem'
      · exfalso
        apply hkv
        rw [← heq]
        exact he
      · simp only [Lazy.cleanStore, if_neg hkv, List.length_cons]
        exact Nat.succ_lt_succ (ih hmem')

end CleanLemmas

open Eager in
/-- Claim C1: for the eager-strategy cache, `Get k` returns `(_, false)`
exactly when `k` is absent or the stored `expiresAt` is non-zero and not
strictly in the future; otherwise it returns the stored value and `true`. -/
theorem eager_get_found_characterization {K V : Type} [DecidableEq K] [Inhabited V]
    (c : Eager.Cache K V) (now : Int) (k : K) :
    ((Eager.get c now k).2 = false ↔
      storeLookup c.store k = none ∨
        ∃ e, storeLookup c.store k = some e ∧ e.expiresAt ≠ 0 ∧ e.expiresAt ≤ now) ∧
    (∀ e, storeLookup c.store k = some e → (e.expiresAt = 0 ∨ now < e.expiresAt) →
      Eager.get c now k = (e.value, true)) := by
  refine ⟨?_, ?_⟩
  · rcases hl : storeLookup c.store k with _ | e
    · simp [Eager.get, hl]
    · by_cases hc : e.expiresAt ≠ 0 ∧ e.expiresAt ≤ now
      · have hval : Eager.get c now k = (e.value, false) := by
          simp only [Eager.get, hl, if_pos hc]
        rw [hval]
        constructor
        · intro _
          exact Or.inr ⟨e, rfl, hc.1, hc.2⟩
        · intro _
          rfl
      · have hval : Eager.get c now k = (e.value, true) := by
          simp only [Eager.get, hl, if_neg hc]
        rw [hval]
        constructor
        · intro h'
          simp at h'
        · rintro (h' | ⟨e', he', h1, h2⟩)
          · exact Option.noConfusion h'
          · injection he' with he''
            subst he''
            exact absurd ⟨h1, h2⟩ hc
  · intro e he hlive
    have hc : ¬(e.expiresAt ≠ 0 ∧ e.expiresAt ≤ now) := by
      rcases hlive with h0 | hfut
      · simp [h0]
      · rintro ⟨h1, h2⟩
        omega
    simp [Eager.get, he, hc]

/-- Witness for C1: a concrete never-expiring entry is found. -/
theorem eager_get_found_characterization_witness :
    Eager.get (⟨[(1, ⟨5, 0⟩)], []⟩ : Eager.Cache Int Int) 100 1 = (5, true) :=
  (eager_get_found_characterization _ 100 1).2 ⟨5, 0⟩ rfl (Or.inl rfl)

/-- Counterexample to claim C2: `SetWithExpiry` with `ttl = 0` does NOT
store the entry without expiry — it stamps `expiresAt = now + 0`, which is
non-zero and not in the future, so an immediate `Get` already reports
not-found (the claim predicts `(v, true)` regardless of elapsed time). -/
theorem eager_ttl_nonpos_counterexample :
    (Eager.get (Eager.setWithExpiry (⟨[], []⟩ : Eager.Cache Int Int) 100 5 7 0) 100 5)
      = (7, false) := by decide

/-- Claim C2 (amended): for `ttl ≤ 0`, `SetWithExpiry` schedules no
deferred deletion, but it stores the entry with `expiresAt = now + ttl`;
since that stamp is not in the future, any later `Get` (at a time
`now' ≥ now + ttl`, provided the stamp is not exactly the zero time)
reports not-found. -/
theorem eager_ttl_nonpos_behavior {K V : Type} [DecidableEq K] [Inhabited V]
    (c : Eager.Cache K V) (now : Int) (k : K) (v : V) (ttl : Int) (h : ttl ≤ 0) :
    (Eager.setWithExpiry c now k v ttl).timers = c.timers ∧
    storeLookup (Eager.setWithExpiry c now k v ttl).store k = some ⟨v, now + ttl⟩ ∧
    (∀ now' : Int, now + ttl ≠ 0 → now + ttl ≤ now' →
      (Eager.get (Eager.setWithExpiry c now k v ttl) now' k).2 = false) := by
  have hnotpos : ¬ 0 < ttl := by omega
  refine ⟨by simp [Eager.setWithExpiry, hnotpos], ?_, ?_⟩
  · simp [Eager.setWithExpiry, hnotpos, storeLookup_set_self]
  · intro now' hz hle
    simp [Eager.get, Eager.setWithExpiry, hnotpos, storeLookup_set_self, hz, hle]

/-- Witness for the amended C2 at a concrete input. -/
theorem eager_ttl_nonpos_behavior_witness :
    (Eager.setWithExpiry (⟨[], []⟩ : Eager.Cache Int Int) 100 5 7 (-3)).timers = [] ∧
    (Eager.get (Eager.setWithExpiry (⟨[], []⟩ : Eager.Cache Int Int) 100 5 7 (-3)) 100 5).2
      = false := by
  have h := eager_ttl_nonpos_behavior (⟨[], []⟩ : Eager.Cache Int Int) 100 5 7 (-3)
    (by decide)
  exact ⟨h.1, h.2.2 100 (by decide) (by decide)⟩

/-- Claim C8: the deferred deletion scheduled by `SetWithExpiry` with
`ttl > 0` deletes unconditionally by key: after the key is overwritten by
a plain `Set`, firing the originally scheduled timer still removes the
entry currently stored under that key. -/
theorem eager_deferred_delete_unconditional {K V : Type} [DecidableEq K]
    (c : Eager.Cache K V) (now : Int) (k : K) (v₁ v₂ : V) (ttl : Int) (h : 0 < ttl) :
    (now + ttl, k) ∈ (Eager.setWithExpiry c now k v₁ ttl).timers ∧
    storeLookup (Eager.set (Eager.setWithExpiry c now k v₁ ttl) k v₂).store k
      = some ⟨v₂, 0⟩ ∧
    storeLookup
      (Eager.fireTimer (Eager.set (Eager.setWithExpiry c now k v₁ ttl) k v₂) k).store k
      = none := by
  refine ⟨?_, ?_, ?_⟩
  · simp [Eager.setWithExpiry, h]
  · simp [Eager.set, storeLookup_set_self]
  · simp [Eager.fireTimer, storeLookup_delete_self]

/-- Witness for C8 at a concrete input. -/
theorem eager_deferred_delete_unconditional_witness :
    storeLookup
      (Eager.fireTimer
        (Eager.set (Eager.setWithExpiry (⟨[], []⟩ : Eager.Cache Int Int) 0 1 10 5) 1 20)
        1).store 1 = none :=
  (eager_deferred_delete_unconditional (⟨[], []⟩ : Eager.Cache Int Int) 0 1 10 20 5
    (by decide)).2.2

/-- Counterexample to claim C3: with the stored deadline 50, the lazy
`Get` at `now = 50` still reports the entry as found — `hasExpired` uses
the strict `After` comparison, so at `now` exactly equal to `expiresAt`
the entry is not yet expired, contrary to the claim's `now >= expiresAt`. -/
theorem lazy_expiry_boundary_counterexample :
    Lazy.get boundaryCache 50 1 = (7, true) := rfl

/-- Claim C3 (amended): for the lazy cache, a stored entry is expired iff
`now` is strictly after its `expiresAt`: `Get` reports found at every
`now ≤ expiresAt` (in particular still found at `now = expiresAt`) and
not-found as soon as `now > expiresAt`; and, for a store with distinct
keys, the found/not-found report is independent of whether a sweep ran at
any earlier time `t₀ ≤ now`. -/
theorem lazy_expiry_strict {K V E : Type} [DecidableEq K] [Inhabited V]
    (c : Lazy.Cache K V E) (k : K) (e : Lazy.Entry V)
    (h : storeLookup c.store k = some e) (now : Int)
    (hnd : (c.store.map Prod.fst).Nodup) :
    ((Lazy.get c now k).2 = true ↔ now ≤ e.expiresAt) ∧
    (Lazy.get c now k).1 = e.value ∧
    (∀ t₀ : Int, t₀ ≤ now →
      (Lazy.get (Lazy.clean c t₀) now k).2 = (Lazy.get c now k).2) := by
  have hget : Lazy.get c now k =
      if Lazy.hasExpired now e then (e.value, false) else (e.value, true) := by
    simp only [Lazy.get, h]
  refine ⟨?_, ?_, ?_⟩
  · rw [hget]
    by_cases hexp : Lazy.hasExpired now e
    · have hlt : e.expiresAt < now := by simpa [Lazy.hasExpired] using hexp
      simp only [if_pos hexp]
      constructor
      · intro hfalse
        simp at hfalse
      · intro hle
        omega
    · have hge : ¬ e.expiresAt < now := by simpa [Lazy.hasExpired] using hexp
      simp only [if_neg hexp]
      constructor
      · intro _
        omega
      · intro _
        trivial
  · rw [hget]
    by_cases hexp : Lazy.hasExpired now e <;> simp [hexp]
  · intro t₀ ht
    have hcl : storeLookup (Lazy.clean c t₀).store k =
        if Lazy.hasExpired t₀ e then none else some e := by
      simpa [Lazy.clean] using storeLookup_cleanStore_some t₀ c.store k e hnd h
    by_cases hexp0 : Lazy.hasExpired t₀ e
    · have hlt0 : e.expiresAt < t₀ := by simpa [Lazy.hasExpired] using hexp0
      have hexpn : Lazy.hasExpired now e = true := by
        simp only [Lazy.hasExpired, decide_eq_true_eq]
        omega
      have hcl' : storeLookup (Lazy.clean c t₀).store k = none := by
        rw [hcl, if_pos hexp0]
      simp [Lazy.get, hcl', h, hexpn]
    · have hcl' : storeLookup (Lazy.clean c t₀).store k = some e := by
        rw [hcl, if_neg hexp0]
      simp [Lazy.get, hcl', h]

/-- Witness for the amended C3: at the deadline itself the concrete entry
is still reported found. -/
theorem lazy_expiry_strict_witness :
    (Lazy.get boundaryCache 50 1).2 = true :=
  (lazy_expiry_strict boundaryCache 1 ⟨7, 50⟩ rfl 50 (by decide)).1.mpr (by decide)

/-- Counterexample to claim C7: in the spec's scenario (entry `(1, "x")`
written with ttl 10, read at time 20) the lazy `Get` returns the stored
value `"x"` with `false`, not the zero value `""` the claim states; `Len`
does stay 1 as claimed. -/
theorem lazy_stale_get_counterexample :
    Lazy.get staleCache 20 1 = ("x", false) ∧ ("x" : String) ≠ "" ∧
    Lazy.len staleCache = 1 := by
  refine ⟨rfl, by decide, rfl⟩

/-- Claim C7 (amended): for the lazy cache, after a key's entry has
expired but before any sweep, `Get` on that key returns the stored
(stale) value paired with `false`, the key still occupies storage (so
`Len` still counts it), and a sweep at the current time removes it,
strictly decreasing `Len`. -/
theorem lazy_expired_entry_before_sweep {K V E : Type} [DecidableEq K] [Inhabited V]
    (c : Lazy.Cache K V E) (k : K) (e : Lazy.Entry V)
    (h : storeLookup c.store k = some e) (now : Int)
    (hexp : e.expiresAt < now) (hnd : (c.store.map Prod.fst).Nodup) :
    Lazy.get c now k = (e.value, false) ∧
    k ∈ c.store.map Prod.fst ∧
    storeLookup (Lazy.clean c now).store k = none ∧
    Lazy.len (Lazy.clean c now) < Lazy.len c := by
  have hb : Lazy.hasExpired now e = true := by
    simp only [Lazy.hasExpired, decide_eq_true_eq]
    exact hexp
  have hmem : (k, e) ∈ c.store := storeLookup_mem c.store k e h
  refine ⟨?_, ?_, ?_, ?_⟩
  · simp [Lazy.get, h, hb]
  · exact List.mem_map_of_mem Prod.fst hmem
  · have hcl := storeLookup_cleanStore_some now c.store k e hnd h
    show storeLookup (Lazy.cleanStore now c.store) k = none
    rw [hcl, if_pos hb]
  · show (Lazy.cleanStore now c.store).length < c.store.length
    exact cleanStore_length_lt now c.store k e hmem hb

/-- Witness for the amended C7 in the spec's concrete scenario. -/
theorem lazy_expired_entry_before_sweep_witness :
    Lazy.get staleCache 20 1 = ("x", false) ∧
    Lazy.len (Lazy.clean staleCache 20) < Lazy.len staleCache := by
  have h := lazy_expired_entry_before_sweep staleCache 1 ⟨"x", 10⟩ rfl 20
    (by decide) (by decide)
  exact ⟨h.1, h.2.2.2⟩

/-- Counterexample to claim C5: when the key-extraction function does not
map the fetched value back to the requested key, the value fetched by
`GetOrFetch 5` is cached under key 0, so an immediate second
`GetOrFetch 5` misses and issues a further `FetchOne` call — the claimed
unconditional "zero further fetch calls" fails. -/
theorem lazy_getOrFetch_refetch_counterexample :
    (Lazy.getOrFetch (Lazy.getOrFetch skewCache 0 5 100).2.1 0 5 100).2.2 = [5] ∧
    [(5 : Int)] ≠ [] := by
  exact ⟨rfl, by decide⟩

/-- Claim C5 (amended): `GetOrFetch` returns the cached value with no
upstream call on a hit; on a miss it calls `FetchOne` exactly once, and
on success it stores the fetched value with the given ttl under the key
derived via `getKey` and returns that value; provided the derived key
equals the requested key, a subsequent `GetOrFetch` at any time before
the expiry deadline issues zero further fetch calls. -/
theorem lazy_getOrFetch_spec {K V E : Type} [DecidableEq K] [Inhabited V]
    (c : Lazy.Cache K V E) (now ttl : Int) (k : K) :
    ((Lazy.get c now k).2 = true →
      Lazy.getOrFetch c now k ttl = (Except.ok (Lazy.get c now k).1, c, [])) ∧
    ((Lazy.get c now k).2 = false → ∀ v, c.fetcher.FetchOne k = Except.ok v →
      Lazy.getOrFetch c now k ttl = (Except.ok v, Lazy.set c now v ttl, [k]) ∧
      storeLookup (Lazy.set c now v ttl).store (c.getKey v) = some ⟨v, now + ttl⟩ ∧
      (c.getKey v = k → ∀ now' : Int, now' ≤ now + ttl →
        (Lazy.getOrFetch (Lazy.set c now v ttl) now' k ttl).2.2 = [] ∧
        (Lazy.getOrFetch (Lazy.set c now v ttl) now' k ttl).1 = Except.ok v)) := by
  constructor
  · intro hhit
    simp [Lazy.getOrFetch, hhit]
  · intro hmiss v hfetch
    have hcall : Lazy.getOrFetch c now k ttl
        = (Except.ok v, Lazy.set c now v ttl, [k]) := by
      simp [Lazy.getOrFetch, hmiss, hfetch]
    refine ⟨hcall, ?_, ?_⟩
    · show storeLookup (storeSet c.store (c.getKey v) ⟨v, now + ttl⟩) (c.getKey v)
        = some ⟨v, now + ttl⟩
      exact storeLookup_set_self _ _ _
    · intro hkey now' hbefore
      have hlook : storeLookup (Lazy.set c now v ttl).store k = some ⟨v, now + ttl⟩ := by
        rw [← hkey]
        exact storeLookup_set_self _ _ _
      have hne : Lazy.hasExpired now' (⟨v, now + ttl⟩ : Lazy.Entry V) = false := by
        simp only [Lazy.hasExpired, decide_eq_false_iff_not]
        omega
      have hfound : Lazy.get (Lazy.set c now v ttl) now' k = (v, true) := by
        simp [Lazy.get, hlook, hne]
      constructor <;> simp [Lazy.getOrFetch, hfound]

/-- Witness for C5: a miss on the empty cache fetches once and a second
call before expiry fetches nothing. -/
theorem lazy_getOrFetch_spec_witness :
    Lazy.getOrFetch emptyIntCache 0 5 100
      = (Except.ok 5, Lazy.set emptyIntCache 0 5 100, [5]) ∧
    (Lazy.getOrFetch (Lazy.set emptyIntCache 0 5 100) 50 5 100).2.2 = [] := by
  have h := (lazy_getOrFetch_spec emptyIntCache 0 100 5).2 rfl 5 rfl
  exact ⟨h.1, (h.2.2 rfl 50 (by decide)).1⟩

/-- Helper for C4 and C10: writing a batch of values leaves every key not
derived from one of the values untouched. -/
theorem storeLookup_foldl_set_not_mem {K V : Type} [DecidableEq K] (getKey : V → K)
    (stamp : Int) (values : List V) (s : List (K × Lazy.Entry V)) (k : K)
    (hk : k ∉ values.map getKey) :
    storeLookup
      (values.foldl (fun s v => storeSet s (getKey v) ⟨v, stamp⟩) s) k
      = storeLookup s k := by
  induction values generalizing s with
  | nil => rfl
  | cons w rest ih =>
    simp only [List.map_cons, List.mem_cons] at hk
    push_neg at hk
    simp only [List.foldl_cons]
    rw [ih _ hk.2, storeLookup_set_ne _ _ _ _ hk.1]

/-- Helper for C4: when the derived keys are distinct, every value of the
batch ends up stored under its derived key with the shared stamp. -/
theorem storeLookup_foldl_set_mem {K V : Type} [DecidableEq K] (getKey : V → K)
    (stamp : Int) (values : List V) (s : List (K × Lazy.Entry V)) (v : V)
    (hv : v ∈ values) (hnd : (values.map getKey).Nodup) :
    storeLookup
      (values.foldl (fun s v => storeSet s (getKey v) ⟨v, stamp⟩) s) (getKey v)
      = some ⟨v, stamp⟩ := by
  induction values generalizing s with
  | nil => cases hv
  | cons w rest ih =>
    simp only [List.map_cons, List.nodup_cons] at hnd
    rcases List.mem_cons.mp hv with heq | hv'
    · subst heq
      simp only [List.foldl_cons]
      rw [storeLookup_foldl_set_not_mem getKey stamp rest _ (getKey v) hnd.1,
        storeLookup_set_self]
    · simp only [List.foldl_cons]
      exact ih _ hv' hnd.2

/-- Claim C4: `FetchMany` partitions the requested keys into cached and
missing, issues exactly one upstream batch call containing exactly the
missing subset (no cached key is refetched), and on success writes every
returned value with the single shared stamp `now + ttl`, leaving every
key not covered by a returned value untouched and returning no error. -/
theorem lazy_fetchMany_spec {K V E : Type} [DecidableEq K] [Inhabited V]
    (c : Lazy.Cache K V E) (now ttl : Int) (keys : List K) (values : List V)
    (hok : c.fetcher.FetchMany (Lazy.missingKeys c now keys) = Except.ok values)
    (hnd : (values.map c.getKey).Nodup) :
    (Lazy.fetchMany c now keys ttl).2.2 = [Lazy.missingKeys c now keys] ∧
    (∀ k ∈ keys, (Lazy.get c now k).2 = true → k ∉ Lazy.missingKeys c now keys) ∧
    (Lazy.fetchMany c now keys ttl).1 = none ∧
    (∀ v ∈ values,
      storeLookup (Lazy.fetchMany c now keys ttl).2.1.store (c.getKey v)
        = some ⟨v, now + ttl⟩) ∧
    (∀ k, k ∉ values.map c.getKey →
      storeLookup (Lazy.fetchMany c now keys ttl).2.1.store k
        = storeLookup c.store k) := by
  have hunf : (Lazy.fetchMany c now keys ttl).2.1.store
        = values.foldl (fun s v => storeSet s (c.getKey v) ⟨v, now + ttl⟩) c.store ∧
      (Lazy.fetchMany c now keys ttl).1 = none ∧
      (Lazy.fetchMany c now keys ttl).2.2 = [Lazy.missingKeys c now keys] := by
    refine ⟨?_, ?_, ?_⟩ <;> simp only [Lazy.fetchMany, hok]
  refine ⟨hunf.2.2, ?_, hunf.2.1, ?_, ?_⟩
  · intro k hk hcached
    simp [Lazy.missingKeys, List.mem_filter, hcached]
  · intro v hv
    rw [hunf.1]
    exact storeLookup_foldl_set_mem c.getKey (now + ttl) values c.store v hv hnd
  · intro k hk
    rw [hunf.1]
    exact storeLookup_foldl_set_not_mem c.getKey (now + ttl) values c.store k hk

/-- Witness for C4 in the spec's scenario: with keys 1 and 3 cached, the
one upstream call carries exactly `[2, 4]` and both fetched values land
in the cache with the shared stamp. -/
theorem lazy_fetchMany_spec_witness :
    (Lazy.fetchMany batchCache 0 [1, 2, 3, 4] 50).2.2 = [[2, 4]] ∧
    storeLookup (Lazy.fetchMany batchCache 0 [1, 2, 3, 4] 50).2.1.store 2
      = some ⟨2, 50⟩ ∧
    storeLookup (Lazy.fetchMany batchCache 0 [1, 2, 3, 4] 50).2.1.store 4
      = some ⟨4, 50⟩ := by
  have h := lazy_fetchMany_spec batchCache 0 50 [1, 2, 3, 4] [2, 4] rfl (by decide)
  refine ⟨?_, ?_, ?_⟩
  · rw [h.1]
    decide
  · have h2 := h.2.2.2.1 2 (by decide)
    simpa using h2
  · have h4 := h.2.2.2.1 4 (by decide)
    simpa using h4

/-- Claim C6: a failing upstream fetch is returned to the caller
unchanged by both `GetOrFetch` and `FetchMany`, and in both cases the
cache is returned exactly as it was before the call. -/
theorem lazy_fetch_error_propagation {K V E : Type} [DecidableEq K] [Inhabited V]
    (c : Lazy.Cache K V E) (now ttl : Int) (k : K) (keys : List K) (err : E) :
    ((Lazy.get c now k).2 = false → c.fetcher.FetchOne k = Except.error err →
      Lazy.getOrFetch c now k ttl = (Except.error err, c, [k])) ∧
    (c.fetcher.FetchMany (Lazy.missingKeys c now keys) = Except.error err →
      Lazy.fetchMany c now keys ttl
        = (some err, c, [Lazy.missingKeys c now keys])) := by
  constructor
  · intro hmiss hfail
    simp [Lazy.getOrFetch, hmiss, hfail]
  · intro hfail
    simp [Lazy.fetchMany, hfail]

/-- Witness for C6: the always-failing fetcher's error comes back as-is
and the cache value returned is the original one. -/
theorem lazy_fetch_error_propagation_witness :
    Lazy.getOrFetch failCache 0 7 10 = (Except.error (), failCache, [7]) ∧
    Lazy.fetchMany failCache 0 [7] 10 = (some (), failCache, [[7]]) := by
  have h := lazy_fetch_error_propagation failCache 0 10 7 [7] ()
  refine ⟨h.1 rfl rfl, ?_⟩
  have h2 := h.2 rfl
  have hm : Lazy.missingKeys failCache 0 [7] = [7] := rfl
  rw [hm] at h2
  exact h2

/-- Claim C10: `FetchMany` invokes the upstream fetcher exactly once even
when every requested key is already cached and unexpired — the missing
subset passed upstream is then empty — and an error from that call is
returned to the caller. -/
theorem lazy_fetchMany_always_calls {K V E : Type} [DecidableEq K] [Inhabited V]
    (c : Lazy.Cache K V E) (now ttl : Int) (keys : List K)
    (hall : ∀ k ∈ keys, (Lazy.get c now k).2 = true) :
    Lazy.missingKeys c now keys = [] ∧
    (Lazy.fetchMany c now keys ttl).2.2 = [[]] ∧
    (∀ err, c.fetcher.FetchMany [] = Except.error err →
      (Lazy.fetchMany c now keys ttl).1 = some err) := by
  have hm : Lazy.missingKeys c now keys = [] := by
    revert hall
    induction keys with
    | nil =>
      intro _
      rfl
    | cons k rest ih =>
      intro hall
      have h1 := hall k (List.mem_cons_self _ _)
      have h2 := ih (fun k hk => hall k (List.mem_cons_of_mem _ hk))
      simp only [Lazy.missingKeys, List.filter_cons] at h2 ⊢
      simp [h1, h2]
  refine ⟨hm, ?_, ?_⟩
  · rcases hres : c.fetcher.FetchMany ([] : List K) with err | vals
    · simp [Lazy.fetchMany, hm, hres]
    · simp [Lazy.fetchMany, hm, hres]
  · intro err herr
    simp [Lazy.fetchMany, hm, herr]

/-- Witness for C10: with the sole requested key already cached, the
failing fetcher is still called (on the empty subset) and its error is
surfaced. -/
theorem lazy_fetchMany_always_calls_witness :
    (Lazy.fetchMany cachedFailCache 0 [1] 10).2.2 = [[]] ∧
    (Lazy.fetchMany cachedFailCache 0 [1] 10).1 = some () := by
  have h := lazy_fetchMany_always_calls cachedFailCache 0 10 [1] (by decide)
  exact ⟨h.2.1, h.2.2 () rfl⟩

/-- Claim C9: with each `StartCleaning` / `StopCleaning` call modelled as
one atomic transition, every state reachable from the initial state has
at most one active sweep loop (exactly one iff `isCleaning`); starting
while running and stopping while idle are no-ops, and the remaining
transitions are exactly idle-to-running on start and running-to-idle on
stop. -/
theorem sweep_loop_invariant (ops : List Sweep.Op) :
    (Sweep.run ops).activeLoops = (if (Sweep.run ops).isCleaning then 1 else 0) ∧
    (Sweep.run ops).activeLoops ≤ 1 ∧
    ((Sweep.run ops).isCleaning = true →
      Sweep.step (Sweep.run ops) Sweep.Op.start = Sweep.run ops) ∧
    ((Sweep.run ops).isCleaning = false →
      Sweep.step (Sweep.run ops) Sweep.Op.stop = Sweep.run ops) ∧
    ((Sweep.run ops).isCleaning = false →
      (Sweep.step (Sweep.run ops) Sweep.Op.start).isCleaning = true) ∧
    ((Sweep.run ops).isCleaning = true →
      (Sweep.step (Sweep.run ops) Sweep.Op.stop).isCleaning = false) := by
  have hstep : ∀ (s : Sweep.State) (op : Sweep.Op),
      s.activeLoops = (if s.isCleaning then 1 else 0) →
      (Sweep.step s op).activeLoops
        = (if (Sweep.step s op).isCleaning then 1 else 0) := by
    intro s op hs
    cases op with
    | start =>
      by_cases h : s.isCleaning
      · simp [Sweep.step, h, hs]
      · simp [Sweep.step, h, hs]
    | stop =>
      by_cases h : s.isCleaning
      · simp [Sweep.step, h, hs]
      · simp [Sweep.step, h, hs]
  have hinv : (Sweep.run ops).activeLoops
      = (if (Sweep.run ops).isCleaning then 1 else 0) := by
    suffices hgen : ∀ s : Sweep.State,
        s.activeLoops = (if s.isCleaning then 1 else 0) →
        (ops.foldl Sweep.step s).activeLoops
          = (if (ops.foldl Sweep.step s).isCleaning then 1 else 0) from
      hgen Sweep.init rfl
    induction ops with
    | nil =>
      intro s hs
      exact hs
    | cons op rest ih =>
      intro s hs
      exact ih (Sweep.step s op) (hstep s op hs)
  refine ⟨hinv, ?_, ?_, ?_, ?_, ?_⟩
  · rw [hinv]
    by_cases h : (Sweep.run ops).isCleaning <;> simp [h]
  · intro h
    simp [Sweep.step, h]
  · intro h
    simp [Sweep.step, h]
  · intro h
    simp [Sweep.step, h]
  · intro h
    simp [Sweep.step, h]

/-- Witness for C9: after two consecutive start calls there is a single
active loop and a further start has no effect. -/
theorem sweep_loop_invariant_witness :
    (Sweep.run [Sweep.Op.start, Sweep.Op.start]).activeLoops ≤ 1 ∧
    Sweep.step (Sweep.run [Sweep.Op.start, Sweep.Op.start]) Sweep.Op.start
      = Sweep.run [Sweep.Op.start, Sweep.Op.start] := by
  have h := sweep_loop_invariant [Sweep.Op.start, Sweep.Op.start]
  exact ⟨h.2.1, h.2.2.1 rfl⟩

end Cachemem
